import Mathlib

/-!
Verification development for the SDRClassifier
(src/src/nupic/algorithms/SDRClassifier.cpp).

Shallow embedding notes:
* `Real64` is modelled as `ℚ` (exact arithmetic; floating-point rounding is
  out of scope).  `UInt` is modelled as `ℕ`; an unsigned subtraction whose
  minuend the code guarantees to be at least the subtrahend is modelled with
  truncated subtraction, while the version-0 history-iteration synthesis in
  `load` — where no such guarantee exists — uses the explicit mod-`2^32`
  wraparound `usub32`.
* `std::exp` is abstracted as an explicit function parameter `e : ℚ → ℚ`
  threaded through `infer_`, `calculateError_` and `compute`; the real
  exponential satisfies the positivity hypothesis used by the theorems.
* The dense `Matrix` collaborator (declared in a header that is not part of
  this repository) is modelled from the spec: a dense 2D array of reals with
  zero-initialising construction, zero-padding resize, row access and
  cell access, represented as `List (List ℚ)` in row-major order.
* `std::map<UInt, Matrix>` is modelled as an association list kept sorted by
  key (the iteration order of `std::map`), with `mapInsert` as `operator[]`
  assignment and `wmGet` as keyed access.
-/

namespace SDRC

/-- Sum of a list of rationals. -/
def sumL : List ℚ → ℚ
  | [] => 0
  | x :: xs => x + sumL xs

/-- Modelled from the spec: the dense numeric `Matrix` collaborator is a 2D
array of reals stored row-major. -/
abbrev Matrix := List (List ℚ)

/-- Modelled from the spec: `Matrix(r, c)` constructs an `r × c` zero matrix
(new cells initialize to zero). -/
def matZero (r c : Nat) : Matrix :=
  List.replicate r (List.replicate c 0)

/-- Row `i` of a matrix (the range `weights.begin(i) .. weights.begin(i+1)`). -/
def matRow (m : Matrix) (i : Nat) : List ℚ :=
  (m : List (List ℚ)).getD i []

/-- Cell read `m.at(i, j)` (in-contract accesses are in bounds). -/
def matAt (m : Matrix) (i j : Nat) : ℚ :=
  (matRow m i).getD j 0

/-- Cell write `m.at(i, j) = v` (in-contract accesses are in bounds). -/
def matSet (m : Matrix) (i j : Nat) (v : ℚ) : Matrix :=
  (m : List (List ℚ)).set i ((matRow m i).set j v)

/-- Modelled from the spec: `Matrix::resize(r, c)` — resize with zero
padding; cells present in both shapes are preserved. -/
def matResize (m : Matrix) (r c : Nat) : Matrix :=
  (List.range r).map (fun i => (List.range c).map (fun j => matAt m i j))

/-- Association-list model of `std::map<UInt, Matrix>`: keyed lookup with a
default (in-contract lookups find their key). -/
def wmGet (wm : List (Nat × Matrix)) (k : Nat) : Matrix :=
  match wm.lookup k with
  | some m => m
  | none => []

/-- `map[k] = v`: sorted insertion, replacing an existing binding.  `std::map`
iterates in ascending key order, which the sorted list mirrors. -/
def mapInsert (k : Nat) (v : Matrix) : List (Nat × Matrix) → List (Nat × Matrix)
  | [] => [(k, v)]
  | (k', v') :: rest =>
      if k < k' then (k, v) :: (k', v') :: rest
      else if k = k' then (k, v) :: rest
      else (k', v') :: mapInsert k v rest

/-- Modelled from the spec: `add(first1, last1, first2, last2)` — elementwise
add of the second range into the first (in-contract ranges have equal
length). -/
def addInto : List ℚ → List ℚ → List ℚ
  | [], _ => []
  | x :: xs, [] => x :: xs
  | x :: xs, y :: ys => (x + y) :: addInto xs ys

/-- Modelled from the spec: `range_exp(k, v)` — elementwise scaled
exponential `v[i] := k * exp(v[i])`, with `exp` abstracted as `e`. -/
def rangeExp (e : ℚ → ℚ) (k : ℚ) (l : List ℚ) : List ℚ :=
  l.map (fun x => k * e x)

/-- Modelled from the spec: `normalize(v, 1.0, 1.0)` — scale the vector so
that it sums to 1 (in-contract sums are nonzero). -/
def normalizeTo (l : List ℚ) : List ℚ :=
  l.map (fun x => x / sumL l)

/-- The classifier state: one field per data member of `SDRClassifier`. -/
structure SDR where
  steps_ : List Nat
  alpha_ : ℚ
  actValueAlpha_ : ℚ
  learnIteration_ : Nat
  recordNumMinusLearnIteration_ : Nat
  recordNumMinusLearnIterationSet_ : Bool
  maxSteps_ : Nat
  patternNZHistory_ : List (List Nat)
  iterationNumHistory_ : List Nat
  maxInputIdx_ : Nat
  maxBucketIdx_ : Nat
  weightMatrix_ : List (Nat × Matrix)
  actualValues_ : List ℚ
  actualValuesSet_ : List Bool
  version_ : Nat
  verbosity_ : Nat
  deriving DecidableEq

/-- The current format version constant (`Version`); the stream check in
`load` is `version <= 1` and `save` emits the v1 fields, so `Version = 1`. -/
def currentVersion : Nat := 1

/-- The constructor `SDRClassifier::SDRClassifier(steps, alpha,
actValueAlpha, verbosity)`. -/
def init (steps : List Nat) (alpha actValueAlpha : ℚ) (verbosity : Nat) : SDR :=
  { steps_ := steps
    alpha_ := alpha
    actValueAlpha_ := actValueAlpha
    learnIteration_ := 0
    recordNumMinusLearnIteration_ := 0
    recordNumMinusLearnIterationSet_ := false
    maxSteps_ := steps.foldl (fun m elem => if elem + 1 > m then elem + 1 else m) 0
    patternNZHistory_ := []
    iterationNumHistory_ := []
    maxInputIdx_ := 0
    maxBucketIdx_ := 0
    weightMatrix_ := steps.foldl (fun wm step => mapInsert step (matZero 1 1) wm) []
    actualValues_ := [0]
    actualValuesSet_ := [false]
    version_ := currentVersion
    verbosity_ := verbosity }

/-- The classifier result sink: keyed vectors, key `−1` for actual values,
key `n` for the horizon-`n` likelihoods, in creation order. -/
abbrev ClassifierResult := List (Int × List ℚ)

/-- `SDRClassifier::infer_`: actual-value vector plus one softmax likelihood
vector per configured horizon.  `e` abstracts `std::exp`. -/
def infer_ (e : ℚ → ℚ) (st : SDR) (patternNZ : List Nat) (actValue : ℚ) :
    ClassifierResult :=
  let actValueVector : List ℚ :=
    (List.range st.actualValues_.length).map (fun i =>
      if st.actualValuesSet_.getD i false then st.actualValues_.getD i 0
      else if st.steps_.getD 0 0 = 0 then 0 else actValue)
  let horizons : List (Int × List ℚ) :=
    st.steps_.map (fun nSteps =>
      let likelihoods : List ℚ :=
        List.replicate (st.maxBucketIdx_ + 1) (1 / (st.actualValues_.length : ℚ))
      let likelihoods :=
        patternNZ.foldl
          (fun l bit => addInto l (matRow (wmGet st.weightMatrix_ nSteps) bit))
          likelihoods
      let likelihoods := rangeExp e 1 likelihoods
      ((nSteps : Int), normalizeTo likelihoods))
  ((-1 : Int), actValueVector) :: horizons

/-- `SDRClassifier::calculateError_`: softmax prediction from the given
pattern's weight rows for the given step, subtracted from the one-hot target
at `bucketIdx` (the `axby(-1, likelihoods, 1, target)` combination). -/
def calculateError_ (e : ℚ → ℚ) (st : SDR) (bucketIdx : Nat)
    (patternNZ : List Nat) (step : Nat) : List ℚ :=
  let likelihoods : List ℚ :=
    List.replicate (st.maxBucketIdx_ + 1) (1 / (st.actualValues_.length : ℚ))
  let likelihoods :=
    patternNZ.foldl
      (fun l bit => addInto l (matRow (wmGet st.weightMatrix_ step) bit))
      likelihoods
  let likelihoods := rangeExp e 1 likelihoods
  let likelihoods := normalizeTo likelihoods
  let targetDistribution : List ℚ :=
    (List.replicate (st.maxBucketIdx_ + 1) (0 : ℚ)).set bucketIdx 1
  List.zipWith (fun x y => -1 * x + 1 * y) likelihoods targetDistribution

/-- The "update rolling averages of bucket values" block of `compute`: the
`while` loop extends both tables with zero/false entries until the value
table has `maxBucketIdx + 1` entries, then the bucket is either assigned
directly (previously unset, or `category`) and marked set, or blended with
rate `actValueAlpha`. -/
def updateAV (av : List ℚ) (avSet : List Bool) (maxBucketIdx bucketIdx : Nat)
    (actValue : ℚ) (category : Bool) (actValueAlpha : ℚ) :
    List ℚ × List Bool :=
  let pad := maxBucketIdx + 1 - av.length
  let av1 := av ++ List.replicate pad 0
  let avSet1 := avSet ++ List.replicate pad false
  if !(avSet1.getD bucketIdx false) || category then
    (av1.set bucketIdx actValue, avSet1.set bucketIdx true)
  else
    (av1.set bucketIdx
      ((1 - actValueAlpha) * av1.getD bucketIdx 0 + actValueAlpha * actValue),
     avSet1)

/-- `SDRClassifier::compute`.  Returns the updated state and the result sink
contents (empty when `infer` is false).  `e` abstracts `std::exp`.
The comparison `maxInputIdx > maxBucketIdx_` and the use of the current
`patternNZ` in the `calculateError_` call are embedded exactly as the C++
source has them. -/
def compute (e : ℚ → ℚ) (st : SDR) (recordNum : Nat) (patternNZ : List Nat)
    (bucketIdx : Nat) (actValue : ℚ) (category learn infer : Bool) :
    SDR × ClassifierResult :=
  -- save the offset between recordNum and learnIteration_ on the first call
  let offset :=
    if st.recordNumMinusLearnIterationSet_ then st.recordNumMinusLearnIteration_
    else recordNum - st.learnIteration_
  let learnIteration := recordNum - offset
  -- update pattern history (front push, back eviction past maxSteps_)
  let patternHist := patternNZ :: st.patternNZHistory_
  let iterationHist := learnIteration :: st.iterationNumHistory_
  let patternHist' :=
    if patternHist.length > st.maxSteps_ then patternHist.dropLast else patternHist
  let iterationHist' :=
    if patternHist.length > st.maxSteps_ then iterationHist.dropLast
    else iterationHist
  -- input-index growth step (the C++ compares against maxBucketIdx_ here)
  let maxInputIdx := patternNZ.foldl (fun m b => max m b) 0
  let grow := maxInputIdx > st.maxBucketIdx_
  let maxInputIdx' := if grow then maxInputIdx else st.maxInputIdx_
  let wm0 :=
    if grow then
      st.steps_.foldl
        (fun wm step =>
          mapInsert step
            (matResize (wmGet wm step) (maxInputIdx' + 1) (st.maxBucketIdx_ + 1))
            wm)
        st.weightMatrix_
    else st.weightMatrix_
  let st1 : SDR :=
    { st with
      recordNumMinusLearnIteration_ := offset
      recordNumMinusLearnIterationSet_ := true
      learnIteration_ := learnIteration
      patternNZHistory_ := patternHist'
      iterationNumHistory_ := iterationHist'
      maxInputIdx_ := maxInputIdx'
      weightMatrix_ := wm0 }
  let result : ClassifierResult :=
    if infer then infer_ e st1 patternNZ actValue else []
  if learn then
    -- bucket growth step
    let maxBucketIdx' := if bucketIdx > st1.maxBucketIdx_ then bucketIdx
      else st1.maxBucketIdx_
    let wm1 :=
      if bucketIdx > st1.maxBucketIdx_ then
        st1.steps_.foldl
          (fun wm step =>
            mapInsert step
              (matResize (wmGet wm step) (maxInputIdx' + 1) (maxBucketIdx' + 1))
              wm)
          st1.weightMatrix_
      else st1.weightMatrix_
    -- rolling averages of bucket values
    let avPair := updateAV st1.actualValues_ st1.actualValuesSet_
      maxBucketIdx' bucketIdx actValue category st1.actValueAlpha_
    let st2 : SDR :=
      { st1 with
        maxBucketIdx_ := maxBucketIdx'
        weightMatrix_ := wm1
        actualValues_ := avPair.1
        actualValuesSet_ := avPair.2 }
    -- compute errors and update weights over the history window
    let wm2 :=
      (st2.iterationNumHistory_.zip st2.patternNZHistory_).foldl
        (fun wm entry =>
          let nSteps := learnIteration - entry.1
          if st2.steps_.contains nSteps then
            let error :=
              calculateError_ e { st2 with weightMatrix_ := wm } bucketIdx
                patternNZ nSteps
            entry.2.foldl
              (fun wmA bit =>
                (List.range st2.maxBucketIdx_).foldl
                  (fun wmB bucket =>
                    mapInsert nSteps
                      (matSet (wmGet wmB nSteps) bit bucket
                        (matAt (wmGet wmB nSteps) bit bucket +
                          st2.alpha_ * error.getD bucket 0))
                      wmB)
                  wmA)
              wm
          else wm)
        st2.weightMatrix_
    ({ st2 with weightMatrix_ := wm2 }, result)
  else
    (st1, result)

/-! ## Persistence: sequential text encoding (`save` / `load`)

The text stream is modelled as a list of whitespace-separated tokens; a
token is the value that `operator<<` printed and that `operator>>` parses
back (strings, unsigned integers, reals; C++ prints a `bool` as `0`/`1` and
`>>` into a `bool` accepts exactly `0`/`1`). -/

/-- A token of the sequential text stream. -/
inductive Tok where
  | s (v : String)
  | n (v : Nat)
  | q (v : ℚ)
  deriving DecidableEq

/-- `outStream << b` for a `bool` prints `1` or `0`. -/
def boolTok (b : Bool) : Tok := Tok.n (if b then 1 else 0)

/-- `inStream >> (string)`. -/
def readStr : List Tok → Option (String × List Tok)
  | Tok.s v :: rest => some (v, rest)
  | _ => none

/-- `inStream >> (UInt)`. -/
def readNat : List Tok → Option (Nat × List Tok)
  | Tok.n v :: rest => some (v, rest)
  | _ => none

/-- `inStream >> (Real64)`. -/
def readRat : List Tok → Option (ℚ × List Tok)
  | Tok.q v :: rest => some (v, rest)
  | _ => none

/-- `inStream >> (bool)`: accepts exactly the digits `0` and `1`. -/
def readBool : List Tok → Option (Bool × List Tok)
  | Tok.n 0 :: rest => some (false, rest)
  | Tok.n 1 :: rest => some (true, rest)
  | _ => none

/-- Read `n` unsigned integers (the `for (i < n) inStream >> x` loops). -/
def readNats : Nat → List Tok → Option (List Nat × List Tok)
  | 0, toks => some ([], toks)
  | n + 1, toks => do
      let (v, t1) ← readNat toks
      let (vs, t2) ← readNats n t1
      some (v :: vs, t2)

/-- Read `n` reals. -/
def readRats : Nat → List Tok → Option (List ℚ × List Tok)
  | 0, toks => some ([], toks)
  | n + 1, toks => do
      let (v, t1) ← readRat toks
      let (vs, t2) ← readRats n t1
      some (v :: vs, t2)

/-- The nested row/column read loop of `load`'s weight-matrix section:
`for (i <= maxInputIdx) for (j <= maxBucketIdx) inStream >> at(i, j)`,
reading `r` rows of `c` cells each. -/
def readMatrixRows : Nat → Nat → List Tok → Option (Matrix × List Tok)
  | 0, _, toks => some (([] : List (List ℚ)), toks)
  | r + 1, c, toks => do
      let (row, t1) ← readRats c toks
      let (rows, t2) ← readMatrixRows r c t1
      some ((row :: rows : List (List ℚ)), t2)

/-- The weight-matrix section read loop of `load`: `numSteps` entries, each
a key followed by a dense `(mi+1) × (mb+1)` dump, inserted into the map. -/
def readWM (count mi mb : Nat) (acc : List (Nat × Matrix)) (toks : List Tok) :
    Option (List (Nat × Matrix) × List Tok) :=
  match count with
  | 0 => some (acc, toks)
  | k + 1 => do
      let (step, t1) ← readNat toks
      let (m, t2) ← readMatrixRows (mi + 1) (mb + 1) t1
      readWM k mi mb (mapInsert step m acc) t2

/-- The actual-value section read loop of `load`: `numBuckets` pairs of a
real value and a set flag. -/
def readAVs : Nat → List Tok → Option ((List ℚ × List Bool) × List Tok)
  | 0, toks => some (([], []), toks)
  | k + 1, toks => do
      let (v, t1) ← readRat toks
      let (b, t2) ← readBool t1
      let ((vs, bs), t3) ← readAVs k t2
      some ((v :: vs, b :: bs), t3)

/-- 32-bit unsigned subtraction: `a - b` on `UInt` wraps modulo `2^32`.
(`size - i` itself never underflows in the loop below, since `i < size`
there.) -/
def usub32 (a b : Nat) : Nat := (a + (2 ^ 32 - b % 2 ^ 32)) % 2 ^ 32

/-- The pattern-history read loop of `load` (index `i`, `fuel` entries left
of `size` total): reads each pattern's length and bits; for a version-0
stream it synthesizes the history iteration number `learnIteration − (size −
i)` for index `i`, with the `UInt` subtraction wrapping modulo `2^32` when
`learnIteration < size − i`. -/
def loadPatternsGo (ver li size : Nat) (i fuel : Nat) (toks : List Tok) :
    Option ((List (List Nat) × List Nat) × List Tok) :=
  match fuel with
  | 0 => some (([], []), toks)
  | k + 1 => do
      let (vSize, t1) ← readNat toks
      let (pat, t2) ← readNats vSize t1
      let ((pats, iters), t3) ← loadPatternsGo ver li size (i + 1) k t2
      some ((pat :: pats,
             (if ver = 0 then [usub32 li (size - i)] else []) ++ iters), t3)

/-- Tokens of a list of unsigned integers. -/
def natToks (l : List Nat) : List Tok := l.map Tok.n

/-- Tokens of the pattern-history section body: each pattern's length then
its bit indices. -/
def patToks (ps : List (List Nat)) : List Tok :=
  (ps.map (fun p => Tok.n p.length :: natToks p)).flatten

/-- Modelled from the spec: the dense matrix `operator<<` (declared with the
external matrix collaborator) writes the full dense dump in row-major
order. -/
def matToks (m : Matrix) : List Tok :=
  ((m : List (List ℚ)).map (fun row => row.map Tok.q)).flatten

/-- Tokens of the weight-matrix section body: per-horizon key followed by
the dense dump. -/
def wmToks (wm : List (Nat × Matrix)) : List Tok :=
  (wm.map (fun kv => Tok.n kv.1 :: matToks kv.2)).flatten

/-- Tokens of the actual-value section body: per-bucket value and set
flag. -/
def avToks (av : List ℚ) (avSet : List Bool) : List Tok :=
  ((av.zip avSet).map (fun vb => [Tok.q vb.1, boolTok vb.2])).flatten

/-- `SDRClassifier::save` without the final end marker.  `version()` is the
accessor for `version_` (declared in the class header). -/
def saveBody (st : SDR) : List Tok :=
  Tok.s "SDRClassifier" :: Tok.n st.version_ ::
  Tok.n st.version_ :: Tok.q st.alpha_ :: Tok.q st.actValueAlpha_ ::
  Tok.n st.learnIteration_ :: Tok.n st.maxSteps_ :: Tok.n st.maxBucketIdx_ ::
  Tok.n st.maxInputIdx_ :: Tok.n st.verbosity_ ::
  Tok.n st.recordNumMinusLearnIteration_ ::
  boolTok st.recordNumMinusLearnIterationSet_ ::
  Tok.n st.iterationNumHistory_.length :: (natToks st.iterationNumHistory_ ++
  (Tok.n st.steps_.length :: (natToks st.steps_ ++
  (Tok.n st.patternNZHistory_.length :: (patToks st.patternNZHistory_ ++
  (Tok.n st.weightMatrix_.length :: (wmToks st.weightMatrix_ ++
  (Tok.n st.actualValues_.length ::
    avToks st.actualValues_ st.actualValuesSet_))))))))

/-- `SDRClassifier::save`: the fields in stream order, ending with the
`~SDRClassifier` marker. -/
def save (st : SDR) : List Tok := saveBody st ++ [Tok.s "~SDRClassifier"]

/-- The scalar prefix of the stream body: `version_`, `alpha_`,
`actValueAlpha_`, `learnIteration_`, `maxSteps_`, `maxBucketIdx_`,
`maxInputIdx_`, `verbosity_`. -/
structure Scalars where
  versionF : Nat
  alpha : ℚ
  actValueAlpha : ℚ
  learnIteration : Nat
  maxSteps : Nat
  maxBucketIdx : Nat
  maxInputIdx : Nat
  verbosity : Nat

/-- Read the simple variables of `load`. -/
def readScalars (toks : List Tok) : Option (Scalars × List Tok) := do
  let (versionF, t1) ← readNat toks
  let (alpha, t2) ← readRat t1
  let (actValueAlpha, t3) ← readRat t2
  let (learnIteration, t4) ← readNat t3
  let (maxSteps, t5) ← readNat t4
  let (maxBucketIdx, t6) ← readNat t5
  let (maxInputIdx, t7) ← readNat t6
  let (verbosity, t8) ← readNat t7
  some ({ versionF, alpha, actValueAlpha, learnIteration, maxSteps,
          maxBucketIdx, maxInputIdx, verbosity }, t8)

/-- The version-1-only fields of `load`: record offset, offset-set flag and
the iteration-number history.  A version-0 stream keeps the prior offset
value and only resets the flag. -/
def readV1Fields (prior : SDR) (version : Nat) (toks : List Tok) :
    Option ((Nat × Bool × List Nat) × List Tok) :=
  if version = 1 then do
    let (rnmli, u1) ← readNat toks
    let (rnmliSet, u2) ← readBool u1
    let (numIter, u3) ← readNat u2
    let (iterHist, u4) ← readNats numIter u3
    some ((rnmli, rnmliSet, iterHist), u4)
  else
    some ((prior.recordNumMinusLearnIteration_, false, ([] : List Nat)), toks)

/-- The pattern-history section of `load`: count, then the patterns (and,
for version 0, the synthesized iteration numbers). -/
def readPatterns (version learnIteration : Nat) (toks : List Tok) :
    Option ((List (List Nat) × List Nat) × List Tok) := do
  let (histSize, t1) ← readNat toks
  loadPatternsGo version learnIteration histSize 0 histSize t1

/-- `SDRClassifier::load` up to (not including) the end-marker check.
`prior` is the in-memory state being loaded into: every container is
cleared and every scalar is overwritten, except that a version-0 stream
leaves `recordNumMinusLearnIteration_` at its prior value (the v0 branch
only resets the flag).  Failed `NTA_CHECK`s and malformed reads give
`none`. -/
def loadCore (prior : SDR) (toks : List Tok) : Option (SDR × List Tok) := do
  let (marker, t1) ← readStr toks
  if marker = "SDRClassifier" then
    let (version, t2) ← readNat t1
    if version ≤ 1 then
      let (sc, t3) ← readScalars t2
      let (v1Fields, t4) ← readV1Fields prior version t3
      let (numSteps, t5) ← readNat t4
      let (steps, t6) ← readNats numSteps t5
      let (hist, t7) ← readPatterns version sc.learnIteration t6
      let (wmCount, t8) ← readNat t7
      let (wm, t9) ← readWM wmCount sc.maxInputIdx sc.maxBucketIdx [] t8
      let (numBuckets, t10) ← readNat t9
      let (avs, t11) ← readAVs numBuckets t10
      some (({ steps_ := steps
               alpha_ := sc.alpha
               actValueAlpha_ := sc.actValueAlpha
               learnIteration_ := sc.learnIteration
               recordNumMinusLearnIteration_ := v1Fields.1
               recordNumMinusLearnIterationSet_ := v1Fields.2.1
               maxSteps_ := sc.maxSteps
               patternNZHistory_ := hist.1
               iterationNumHistory_ := v1Fields.2.2 ++ hist.2
               maxInputIdx_ := sc.maxInputIdx
               maxBucketIdx_ := sc.maxBucketIdx
               weightMatrix_ := wm
               actualValues_ := avs.1
               actualValuesSet_ := avs.2
               version_ := sc.versionF
               verbosity_ := sc.verbosity }, t11))
    else none
  else none

/-- `SDRClassifier::load`: parse the body, check the end marker, and stamp
the in-code format version. -/
def load (prior : SDR) (toks : List Tok) : Option SDR := do
  let (st, t1) ← loadCore prior toks
  let (marker, _t2) ← readStr t1
  if marker = "~SDRClassifier" then
    some { st with version_ := currentVersion }
  else none


/-! ## Persistence: structured schema encoding (`write`)

The capnp message is modelled as a record of typed lists; `initWeight n`
creates a list of `n` zero-initialised floats and `set(idx, v)` stores `v`
at position `idx`. -/

/-- The `SdrClassifierProto` message. -/
structure SdrClassifierProto where
  steps : List Nat
  alpha : ℚ
  actValueAlpha : ℚ
  learnIteration : Nat
  recordNumMinusLearnIteration : Nat
  recordNumMinusLearnIterationSet : Bool
  maxSteps : Nat
  patternNZHistory : List (List Nat)
  iterationNumHistory : List Nat
  maxBucketIdx : Nat
  maxInputIdx : Nat
  weightMatrix : List (Nat × List ℚ)
  actualValues : List ℚ
  actualValuesSet : List Bool
  version : Nat
  verbosity : Nat
  deriving DecidableEq

/-- `SDRClassifier::write`.  The weight section is embedded exactly as the
C++ has it: entry `k` of the map allocates a flat list of length
`(maxInputIdx_+1)*(maxBucketIdx_+1)` and then executes
`weightProto.set(k, cell)` for every cell in row-major order (the local
counter `idx` is incremented but never used). -/
def write (st : SDR) : SdrClassifierProto :=
  { steps := st.steps_
    alpha := st.alpha_
    actValueAlpha := st.actValueAlpha_
    learnIteration := st.learnIteration_
    recordNumMinusLearnIteration := st.recordNumMinusLearnIteration_
    recordNumMinusLearnIterationSet := st.recordNumMinusLearnIterationSet_
    maxSteps := st.maxSteps_
    patternNZHistory := st.patternNZHistory_
    iterationNumHistory := st.iterationNumHistory_
    maxBucketIdx := st.maxBucketIdx_
    maxInputIdx := st.maxInputIdx_
    weightMatrix :=
      st.weightMatrix_.enum.map (fun ke =>
        let cells :=
          ((List.range (st.maxInputIdx_ + 1)).map (fun i =>
            (List.range (st.maxBucketIdx_ + 1)).map (fun j =>
              matAt ke.2.2 i j))).flatten
        (ke.2.1,
         cells.foldl (fun w c => w.set ke.1 c)
           (List.replicate ((st.maxInputIdx_ + 1) * (st.maxBucketIdx_ + 1))
             (0 : ℚ))))
    actualValues := st.actualValues_
    actualValuesSet := st.actualValuesSet_
    version := st.version_
    verbosity := st.verbosity_ }

/-- Modelled from the spec: the structured encoding's intended weight
serialization — each horizon's weight matrix flattened row-major into one
contiguous list of length `(maxInputIdx+1)·(maxBucketIdx+1)`. -/
def flattenRowMajor (mi mb : Nat) (m : Matrix) : List ℚ :=
  ((List.range (mi + 1)).map (fun i =>
    (List.range (mb + 1)).map (fun j => matAt m i j))).flatten

/-! ## Equality comparator (`operator==`) -/

/-- The floating-point comparison used by `operator==`:
`fabs(a − b) > 0.000001` means different. -/
def approxEq (a b : ℚ) : Bool := |a - b| ≤ 1 / 1000000

/-- `SDRClassifier::operator==`: exact match for the horizon list, counters
and flags; tolerance `1e-6` for `alpha_`, `actValueAlpha_` and the actual
values; exact match for every weight cell up to the current dimensions. -/
def sdrEq (a b : SDR) : Bool :=
  (a.steps_.length == b.steps_.length) &&
  (a.steps_.zip b.steps_).all (fun p => p.1 == p.2) &&
  approxEq a.alpha_ b.alpha_ &&
  approxEq a.actValueAlpha_ b.actValueAlpha_ &&
  (a.learnIteration_ == b.learnIteration_) &&
  (a.recordNumMinusLearnIteration_ == b.recordNumMinusLearnIteration_) &&
  (a.recordNumMinusLearnIterationSet_ == b.recordNumMinusLearnIterationSet_) &&
  (a.maxSteps_ == b.maxSteps_) &&
  (a.patternNZHistory_.length == b.patternNZHistory_.length) &&
  (a.patternNZHistory_.zip b.patternNZHistory_).all (fun pq =>
    (pq.1.length == pq.2.length) &&
    (pq.1.zip pq.2).all (fun xy => xy.1 == xy.2)) &&
  (a.iterationNumHistory_.length == b.iterationNumHistory_.length) &&
  (a.iterationNumHistory_.zip b.iterationNumHistory_).all (fun xy =>
    xy.1 == xy.2) &&
  (a.maxBucketIdx_ == b.maxBucketIdx_) &&
  (a.maxInputIdx_ == b.maxInputIdx_) &&
  (a.weightMatrix_.length == b.weightMatrix_.length) &&
  a.weightMatrix_.all (fun kv =>
    (List.range (a.maxInputIdx_ + 1)).all (fun i =>
      (List.range (a.maxBucketIdx_ + 1)).all (fun j =>
        matAt kv.2 i j == matAt (wmGet b.weightMatrix_ kv.1) i j))) &&
  (a.actualValues_.length == b.actualValues_.length) &&
  (a.actualValuesSet_.length == b.actualValuesSet_.length) &&
  (List.range a.actualValues_.length).all (fun i =>
    approxEq (a.actualValues_.getD i 0) (b.actualValues_.getD i 0) &&
    (a.actualValuesSet_.getD i false == b.actualValuesSet_.getD i false)) &&
  (a.version_ == b.version_) &&
  (a.verbosity_ == b.verbosity_)

/-! ## Concrete evaluation scenarios -/

/-- Exponential stand-in used for concrete evaluations; these theorems only
exercise control flow and exact arithmetic, for which any function in the
`exp` slot is admissible. -/
def eEval : ℚ → ℚ := fun x => x + 10

/-- Learning scenario, call 1 of 3: horizons `[1]`, `α = 1`, `β = 1/2`;
`compute(recordNum=0, pattern=[1], bucketIdx=1, actValue=0, learn=true)`. -/
def c1State1 : SDR :=
  (compute eEval (init [1] 1 (1 / 2) 0) 0 [1] 1 0 false true false).1

/-- Learning scenario, call 2 of 3:
`compute(recordNum=1, pattern=[0], bucketIdx=0, actValue=0, learn=true)`. -/
def c1State2 : SDR := (compute eEval c1State1 1 [0] 0 0 false true false).1

/-- Learning scenario, call 3 of 3:
`compute(recordNum=2, pattern=[1], bucketIdx=0, actValue=0, learn=true)`. -/
def c1State3 : SDR := (compute eEval c1State2 2 [1] 0 0 false true false).1

/-- Input-growth scenario, call 1 of 2: horizons `[0]`;
`compute(recordNum=0, pattern=[5], learn=false, infer=false)`. -/
def c2State1 : SDR :=
  (compute eEval (init [0] 1 1 0) 0 [5] 0 0 false false false).1

/-- Input-growth scenario, call 2 of 2:
`compute(recordNum=1, pattern=[3], learn=false, infer=false)`. -/
def c2State2 : SDR := (compute eEval c2State1 1 [3] 0 0 false false false).1

/-- A classifier state with one horizon and a `2 × 1` weight matrix holding
cells `7` and `9`. -/
def c3Base : SDR :=
  { steps_ := [1]
    alpha_ := 1
    actValueAlpha_ := 1
    learnIteration_ := 0
    recordNumMinusLearnIteration_ := 0
    recordNumMinusLearnIterationSet_ := false
    maxSteps_ := 2
    patternNZHistory_ := []
    iterationNumHistory_ := []
    maxInputIdx_ := 1
    maxBucketIdx_ := 0
    weightMatrix_ := [(1, [[7], [9]])]
    actualValues_ := [0]
    actualValuesSet_ := [false]
    version_ := 1
    verbosity_ := 0 }

/-- The same state with weight cell `(0, 0)` changed from `7` to `8`. -/
def c3Alt : SDR := { c3Base with weightMatrix_ := [(1, [[8], [9]])] }

/-- A version-0 sequential stream: marker, version tag `0`, scalars with
`learnIteration_ = 1`, no v1 fields, one horizon `1`, two history patterns
`[0]` and `[1]`, one `1 × 1` weight matrix, one actual-value pair, end
marker.  `learnIteration < historyCount`, so the first synthesized
iteration number wraps. -/
def c8Toks : List Tok :=
  [Tok.s "SDRClassifier", Tok.n 0,
   Tok.n 0, Tok.q 1, Tok.q 1, Tok.n 1, Tok.n 2, Tok.n 0, Tok.n 0, Tok.n 0,
   Tok.n 1, Tok.n 1,
   Tok.n 2, Tok.n 1, Tok.n 0, Tok.n 1, Tok.n 1,
   Tok.n 1, Tok.n 1, Tok.q 0,
   Tok.n 1, Tok.q 0, Tok.n 0,
   Tok.s "~SDRClassifier"]

/-- The state obtained by loading the version-0 stream `c8Toks`. -/
def c8Loaded : SDR := (load (init [1] 1 1 0) c8Toks).getD (init [1] 1 1 0)

/-! ## General helper lemmas -/

theorem getD_append_of_lt {α : Type} (l l' : List α) (i : Nat) (d : α)
    (h : i < l.length) : (l ++ l').getD i d = l.getD i d := by
  induction l generalizing i with
  | nil => simp at h
  | cons x xs ih =>
      cases i with
      | zero => rfl
      | succ n => exact ih n (by simpa using h)

theorem getD_replicate {α : Type} (n i : Nat) (d : α) :
    (List.replicate n d).getD i d = d := by
  induction n generalizing i with
  | zero => rfl
  | succ m ih =>
      cases i with
      | zero => rfl
      | succ k => exact ih k

theorem getD_append_replicate {α : Type} (l : List α) (n i : Nat) (d : α) :
    (l ++ List.replicate n d).getD i d = l.getD i d := by
  induction l generalizing i with
  | nil => simp [getD_replicate n i d]
  | cons x xs ih =>
      cases i with
      | zero => rfl
      | succ k => exact ih k

theorem getD_set_self {α : Type} (l : List α) (i : Nat) (v d : α)
    (h : i < l.length) : (l.set i v).getD i d = v := by
  induction l generalizing i with
  | nil => simp at h
  | cons x xs ih =>
      cases i with
      | zero => rfl
      | succ k => exact ih k (by simpa using h)

theorem addInto_length (l r : List ℚ) : (addInto l r).length = l.length := by
  induction l generalizing r with
  | nil => rfl
  | cons x xs ih =>
      cases r with
      | nil => rfl
      | cons y ys => simpa [addInto] using ih ys

theorem foldl_addInto_length (bits : List Nat) (g : Nat → List ℚ)
    (l : List ℚ) :
    (bits.foldl (fun acc bit => addInto acc (g bit)) l).length = l.length := by
  induction bits generalizing l with
  | nil => rfl
  | cons b bs ih => simpa [addInto_length] using ih (addInto l (g b))

theorem sumL_map_div (l : List ℚ) (S : ℚ) :
    sumL (l.map (fun x => x / S)) = sumL l / S := by
  induction l with
  | nil => simp [sumL]
  | cons x xs ih => simp [sumL, ih, add_div]

theorem sumL_pos (l : List ℚ) (hne : l ≠ []) (h : ∀ x ∈ l, 0 < x) :
    0 < sumL l := by
  induction l with
  | nil => exact absurd rfl hne
  | cons x xs ih =>
      cases xs with
      | nil => simpa [sumL] using h x (by simp)
      | cons y ys =>
          have hx : 0 < x := h x (by simp)
          have hxs : 0 < sumL (y :: ys) :=
            ih (by simp) (fun z hz => h z (List.mem_cons_of_mem x hz))
          simpa [sumL] using add_pos hx hxs

theorem normalizeTo_length (l : List ℚ) :
    (normalizeTo l).length = l.length := by
  simp [normalizeTo]

theorem sumL_normalizeTo (l : List ℚ) (h : 0 < sumL l) :
    sumL (normalizeTo l) = 1 := by
  unfold normalizeTo
  rw [sumL_map_div]
  exact div_self (ne_of_gt h)

/-- Shape of every entry of the `infer_` result: the head is the key `−1`
actual-value vector; every other entry is a configured horizon's normalized
softmax vector of size `maxBucketIdx_ + 1`. -/
theorem infer_mem_shape (e : ℚ → ℚ) (st : SDR) (pat : List Nat) (a : ℚ)
    (p : Int × List ℚ) (hp : p ∈ infer_ e st pat a) :
    (p.1 = -1 ∧ p.2.length = st.actualValues_.length) ∨
    (∃ s ∈ st.steps_, p.1 = (s : Int) ∧
      p.2 = normalizeTo (rangeExp e 1 (pat.foldl
        (fun l bit => addInto l (matRow (wmGet st.weightMatrix_ s) bit))
        (List.replicate (st.maxBucketIdx_ + 1)
          (1 / (st.actualValues_.length : ℚ)))))) := by
  unfold infer_ at hp
  rcases List.mem_cons.mp hp with h | h
  · left
    rw [h]
    simp
  · right
    rcases List.mem_map.mp h with ⟨s, hs, hval⟩
    exact ⟨s, hs, by rw [← hval], by rw [← hval]⟩

/-- The keys of the `infer_` result include every configured horizon. -/
theorem infer_mem_keys (e : ℚ → ℚ) (st : SDR) (pat : List Nat) (a : ℚ)
    (s : Nat) (hs : s ∈ st.steps_) :
    (s : Int) ∈ (infer_ e st pat a).map Prod.fst := by
  unfold infer_
  refine List.mem_map.mpr ⟨((s : Int),
    normalizeTo (rangeExp e 1 (pat.foldl
      (fun l bit => addInto l (matRow (wmGet st.weightMatrix_ s) bit))
      (List.replicate (st.maxBucketIdx_ + 1)
        (1 / (st.actualValues_.length : ℚ)))))), ?_, rfl⟩
  exact List.mem_cons_of_mem _ (List.mem_map.mpr ⟨s, hs, rfl⟩)

/-- With `infer = true`, the result of `compute` is the `infer_` output of
an intermediate state sharing the horizons, bucket bound and actual-value
table of the input state. -/
theorem compute_snd_eq (e : ℚ → ℚ) (st : SDR) (rn : Nat) (pat : List Nat)
    (b : Nat) (a : ℚ) (cat learn : Bool) :
    ∃ st1 : SDR, (compute e st rn pat b a cat learn true).2 =
        infer_ e st1 pat a ∧
      st1.steps_ = st.steps_ ∧ st1.maxBucketIdx_ = st.maxBucketIdx_ ∧
      st1.actualValues_ = st.actualValues_ := by
  cases learn <;> exact ⟨_, rfl, rfl, rfl, rfl⟩

/-! ## Claim theorems: concrete code-bug evaluations -/

unseal Rat.add Rat.mul Rat.inv Rat.sub in
/-- C1: in the third call of the learning scenario the single history entry
at elapsed steps 1 stores pattern `[0]`, whose weight row receives the
update.  The claim's error-computation rule (softmax prediction from that
stored pattern) gives `error[0] = 1/2`, so with `α = 1` and an old cell
value of `0` the claim mandates a new cell value `0 + 1 * (1/2)`; the code
instead passes the current pattern `[1]` to `calculateError_` and writes
`21/43`.  The third conjunct evaluates the error-computation rule on the
stored pattern in the pre-update state. -/
theorem c1_error_uses_current_pattern_eval :
    matAt (wmGet c1State3.weightMatrix_ 1) 0 0 = 21 / 43 ∧
    matAt (wmGet c1State2.weightMatrix_ 1) 0 0 = 0 ∧
    calculateError_ eEval c1State2 0 [0] 1 = [1 / 2, -1 / 2] ∧
    (21 : ℚ) / 43 ≠ 0 + 1 * (1 / 2) := by decide

unseal Rat.add Rat.mul Rat.inv Rat.sub in
/-- C2: after observing pattern `[5]` the maximum input index is `5`; the
next pattern `[3]` does not exceed it, so the claim mandates that
`maxInputIdx` stay `5` — but `compute` compares the pattern's maximum bit
against `maxBucketIdx_` (which is `0`) and overwrites `maxInputIdx_` with
`3`. -/
theorem c2_maxInputIdx_overwritten_eval :
    c2State1.maxInputIdx_ = 5 ∧ c2State2.maxInputIdx_ = 3 := by decide

unseal Rat.add Rat.mul Rat.inv Rat.sub in
/-- C9: across the two calls of the input-growth scenario, `maxInputIdx_`
drops from `5` to `3` and the horizon-0 weight matrix shrinks from `6`
rows to `4`, contradicting the claimed monotonicity. -/
theorem c9_growth_not_monotone_eval :
    c2State1.maxInputIdx_ = 5 ∧ c2State2.maxInputIdx_ = 3 ∧
    (wmGet c2State1.weightMatrix_ 0).length = 6 ∧
    (wmGet c2State2.weightMatrix_ 0).length = 4 ∧ ¬ (5 : Nat) ≤ 3 := by decide

unseal Rat.add Rat.mul Rat.inv Rat.sub in
/-- C3: `write` stores every cell of matrix `k` at flat index `k` (the
row-major index `idx` is never used), so the serialized weight list of
`c3Base` is `[9, 0]` instead of the row-major flattening `[7, 9]`; states
differing only in cell `(0, 0)` produce identical messages, so no reader
can round-trip both. -/
theorem c3_write_flattening_destroyed_eval :
    (write c3Base).weightMatrix = [(1, [9, 0])] ∧
    flattenRowMajor 1 0 [[7], [9]] = [7, 9] ∧
    write c3Base = write c3Alt ∧
    c3Base ≠ c3Alt := by decide

/-! ## Claim theorems: general properties -/

/-- C5: with `infer = true`, every configured horizon's key appears in the
result, and every horizon entry (key different from `−1`) is a likelihood
vector of size `maxBucketIdx_ + 1` — built from the uniform prior, the
weight rows of the active bits, the elementwise exponential and
normalization — that sums exactly to 1, given a positive exponential (as
the real `exp` is). -/
theorem c5_horizon_distributions_sum_to_one (e : ℚ → ℚ) (st : SDR) (rn : Nat)
    (pat : List Nat) (b : Nat) (a : ℚ) (cat learn : Bool)
    (hpos : ∀ x, 0 < e x) :
    (∀ s ∈ st.steps_,
      (s : Int) ∈ ((compute e st rn pat b a cat learn true).2).map Prod.fst) ∧
    ∀ p ∈ (compute e st rn pat b a cat learn true).2, p.1 ≠ -1 →
      p.2.length = st.maxBucketIdx_ + 1 ∧ sumL p.2 = 1 := by
  obtain ⟨st1, heq, hsteps, hmb, _⟩ := compute_snd_eq e st rn pat b a cat learn
  rw [heq, ← hsteps, ← hmb]
  constructor
  · exact fun s hs => infer_mem_keys e st1 pat a s hs
  · intro p hp hne
    rcases infer_mem_shape e st1 pat a p hp with ⟨h1, _⟩ | ⟨s, _, _, hval⟩
    · exact absurd h1 hne
    · have hlen : (rangeExp e 1 (pat.foldl
          (fun l bit => addInto l (matRow (wmGet st1.weightMatrix_ s) bit))
          (List.replicate (st1.maxBucketIdx_ + 1)
            (1 / (st1.actualValues_.length : ℚ))))).length =
          st1.maxBucketIdx_ + 1 := by
        simp only [rangeExp, List.length_map, foldl_addInto_length,
          List.length_replicate]
      constructor
      · rw [hval, normalizeTo_length, hlen]
      · rw [hval]
        apply sumL_normalizeTo
        apply sumL_pos
        · intro hcon
          rw [hcon] at hlen
          simp at hlen
        · intro x hx
          rcases List.mem_map.mp hx with ⟨y, _, rfl⟩
          simpa using hpos y

/-- Witness for C5 at a concrete first call. -/
theorem c5_horizon_distributions_sum_to_one_witness :
    (∀ s ∈ (init [0, 1] 1 1 0).steps_,
      (s : Int) ∈ ((compute (fun _ => (1 : ℚ)) (init [0, 1] 1 1 0) 0 [2] 1 5
        false true true).2).map Prod.fst) ∧
    ∀ p ∈ (compute (fun _ => (1 : ℚ)) (init [0, 1] 1 1 0) 0 [2] 1 5
        false true true).2, p.1 ≠ -1 →
      p.2.length = (init [0, 1] 1 1 0).maxBucketIdx_ + 1 ∧ sumL p.2 = 1 :=
  c5_horizon_distributions_sum_to_one (fun _ => (1 : ℚ)) (init [0, 1] 1 1 0)
    0 [2] 1 5 false true (fun _ => one_pos)

/-- Effect of the rolling-average block on the updated bucket: direct
assignment when previously unset or `category`, exponential blend
otherwise; the bucket's set flag is true afterwards. -/
theorem updateAV_getD (av : List ℚ) (avSet : List Bool) (mb b : Nat)
    (a : ℚ) (cat : Bool) (beta : ℚ)
    (hlen : avSet.length = av.length) (hble : b ≤ mb) :
    (updateAV av avSet mb b a cat beta).1.getD b 0 =
      (if (!(avSet.getD b false) || cat) then a
       else (1 - beta) * av.getD b 0 + beta * a) ∧
    (updateAV av avSet mb b a cat beta).2.getD b false = true := by
  unfold updateAV
  have hset : (avSet ++ List.replicate (mb + 1 - av.length) false).getD b false
      = avSet.getD b false := getD_append_replicate _ _ _ _
  have hav : (av ++ List.replicate (mb + 1 - av.length) 0).getD b 0
      = av.getD b 0 := getD_append_replicate _ _ _ _
  have hblen : b < (av ++ List.replicate (mb + 1 - av.length) 0).length := by
    rw [List.length_append, List.length_replicate]
    omega
  have hslen : b < (avSet ++ List.replicate (mb + 1 - av.length) false).length
      := by
    rw [List.length_append, List.length_replicate]
    omega
  simp only [hset]
  by_cases hcond : (!(avSet.getD b false) || cat) = true
  · rw [if_pos hcond, if_pos hcond]
    exact ⟨getD_set_self _ _ _ _ hblen, getD_set_self _ _ _ _ hslen⟩
  · rw [if_neg hcond, if_neg hcond]
    have hsetb : avSet.getD b false = true := by
      cases h : avSet.getD b false with
      | true => rfl
      | false => exact absurd (by rw [h]; simp) hcond
    exact ⟨by rw [getD_set_self _ _ _ _ hblen, hav], by rw [hset, hsetb]⟩

/-- C7: with `learn = true`, the actual-value estimate at `bucketIdx`
becomes exactly `actValue` when the bucket was previously unset or the
category flag is set (and the bucket is marked set); otherwise it becomes
the exponential blend `(1 − β)·old + β·actValue`. -/
theorem c7_actual_value_update (e : ℚ → ℚ) (st : SDR) (rn : Nat)
    (pat : List Nat) (b : Nat) (a : ℚ) (cat infer : Bool)
    (hlen : st.actualValuesSet_.length = st.actualValues_.length) :
    (compute e st rn pat b a cat true infer).1.actualValues_.getD b 0 =
      (if (!(st.actualValuesSet_.getD b false) || cat) then a
       else (1 - st.actValueAlpha_) * st.actualValues_.getD b 0 +
         st.actValueAlpha_ * a) ∧
    (compute e st rn pat b a cat true infer).1.actualValuesSet_.getD b false
      = true := by
  have h1 : (compute e st rn pat b a cat true infer).1.actualValues_ =
      (updateAV st.actualValues_ st.actualValuesSet_
        (if b > st.maxBucketIdx_ then b else st.maxBucketIdx_) b a cat
        st.actValueAlpha_).1 := rfl
  have h2 : (compute e st rn pat b a cat true infer).1.actualValuesSet_ =
      (updateAV st.actualValues_ st.actualValuesSet_
        (if b > st.maxBucketIdx_ then b else st.maxBucketIdx_) b a cat
        st.actValueAlpha_).2 := rfl
  rw [h1, h2]
  exact updateAV_getD st.actualValues_ st.actualValuesSet_ _ b a cat
    st.actValueAlpha_ hlen (by split <;> omega)

unseal Rat.add Rat.mul Rat.inv Rat.sub in
/-- Witness for C7: the first-ever learn call at bucket `0` (previously
unset) stores exactly the supplied `actValue = 5`. -/
theorem c7_actual_value_update_witness :
    ((compute (fun _ => (1 : ℚ)) (init [1] 1 (1 / 2) 0) 0 [0] 0 5 false true
        false).1.actualValues_.getD 0 0 =
      (if (!((init [1] 1 (1 / 2) 0).actualValuesSet_.getD 0 false) || false)
       then 5
       else (1 - (init [1] 1 (1 / 2) 0).actValueAlpha_) *
         (init [1] 1 (1 / 2) 0).actualValues_.getD 0 0 +
         (init [1] 1 (1 / 2) 0).actValueAlpha_ * 5)) ∧
    (compute (fun _ => (1 : ℚ)) (init [1] 1 (1 / 2) 0) 0 [0] 0 5 false true
        false).1.actualValuesSet_.getD 0 false = true :=
  c7_actual_value_update (fun _ => (1 : ℚ)) (init [1] 1 (1 / 2) 0) 0 [0] 0 5
    false false rfl

theorem foldl_maxSteps (l : List Nat) (m : Nat) :
    l.foldl (fun acc elem => if elem + 1 > acc then elem + 1 else acc) (m + 1)
      = l.foldl (fun acc elem => max acc elem) m + 1 := by
  induction l generalizing m with
  | nil => rfl
  | cons e es ih =>
      have hstep : (if e + 1 > m + 1 then e + 1 else m + 1) = max m e + 1 := by
        split <;> omega
      simp only [List.foldl_cons]
      rw [hstep, ih]

theorem init_maxSteps (steps : List Nat) (al be : ℚ) (v : Nat)
    (hne : steps ≠ []) :
    (init steps al be v).maxSteps_ =
      steps.foldl (fun acc elem => max acc elem) 0 + 1 := by
  cases steps with
  | nil => exact absurd rfl hne
  | cons s rest =>
      show (s :: rest).foldl
        (fun acc elem => if elem + 1 > acc then elem + 1 else acc) 0 = _
      simp only [List.foldl_cons]
      have h0 : (if s + 1 > 0 then s + 1 else 0) = s + 1 :=
        if_pos (Nat.succ_pos s)
      have h1 : max 0 s = s := Nat.zero_max s
      rw [h0, foldl_maxSteps, h1]

theorem lookup_mapInsert_self (k : Nat) (v : Matrix)
    (m : List (Nat × Matrix)) : (mapInsert k v m).lookup k = some v := by
  induction m with
  | nil => simp [mapInsert, List.lookup]
  | cons kv rest ih =>
      obtain ⟨k1, v1⟩ := kv
      by_cases h1 : k < k1
      · simp [mapInsert, h1, List.lookup]
      · by_cases h2 : k = k1
        · simp [mapInsert, h1, h2, List.lookup]
        · simp [mapInsert, h1, h2, List.lookup, ih,
            beq_eq_false_iff_ne.mpr h2]

theorem lookup_mapInsert_ne (k q : Nat) (v : Matrix)
    (m : List (Nat × Matrix)) (h : q ≠ k) :
    (mapInsert k v m).lookup q = m.lookup q := by
  induction m with
  | nil => simp [mapInsert, List.lookup, beq_eq_false_iff_ne.mpr h]
  | cons kv rest ih =>
      obtain ⟨k1, v1⟩ := kv
      by_cases h1 : k < k1
      · simp [mapInsert, h1, List.lookup, beq_eq_false_iff_ne.mpr h]
      · by_cases h2 : k = k1
        · subst h2
          simp [mapInsert, h1, List.lookup, beq_eq_false_iff_ne.mpr h]
        · simp [mapInsert, h1, h2, List.lookup, ih]

theorem wmGet_mapInsert_self (k : Nat) (v : Matrix)
    (m : List (Nat × Matrix)) : wmGet (mapInsert k v m) k = v := by
  simp [wmGet, lookup_mapInsert_self]

theorem wmGet_mapInsert_ne (k q : Nat) (v : Matrix)
    (m : List (Nat × Matrix)) (h : q ≠ k) :
    wmGet (mapInsert k v m) q = wmGet m q := by
  simp [wmGet, lookup_mapInsert_ne k q v m h]

theorem wmGet_foldl_insert_of_not_mem (steps : List Nat) (z : Matrix)
    (wm0 : List (Nat × Matrix)) (k : Nat) (hk : k ∉ steps) :
    wmGet (steps.foldl (fun wm step => mapInsert step z wm) wm0) k
      = wmGet wm0 k := by
  induction steps generalizing wm0 with
  | nil => rfl
  | cons e rest ih =>
      have hne : k ≠ e := fun h => hk (h ▸ List.mem_cons_self e rest)
      have hrest : k ∉ rest := fun h => hk (List.mem_cons_of_mem e h)
      rw [List.foldl_cons, ih (mapInsert e z wm0) hrest,
        wmGet_mapInsert_ne e k z wm0 hne]

theorem wmGet_foldl_insert_of_mem (steps : List Nat) (z : Matrix)
    (wm0 : List (Nat × Matrix)) (s : Nat) (hs : s ∈ steps) :
    wmGet (steps.foldl (fun wm step => mapInsert step z wm) wm0) s = z := by
  induction steps generalizing wm0 with
  | nil => cases hs
  | cons e rest ih =>
      rw [List.foldl_cons]
      by_cases hmem : s ∈ rest
      · exact ih (mapInsert e z wm0) hmem
      · have hse : s = e := by
          rcases List.mem_cons.mp hs with h | h
          · exact h
          · exact absurd h hmem
        subst hse
        rw [wmGet_foldl_insert_of_not_mem rest z _ s hmem,
          wmGet_mapInsert_self]

/-- C10: the freshly constructed classifier has a single unset actual-value
entry, zero index bounds, a `1 × 1` all-zero weight matrix per configured
horizon, `maxSteps_` equal to the largest horizon plus one, and an
infer-only first call emits only size-1 vectors. -/
theorem c10_constructor_state (steps : List Nat) (al be : ℚ) (v : Nat)
    (e : ℚ → ℚ) (rn : Nat) (pat : List Nat) (b : Nat) (a : ℚ) (cat : Bool)
    (hne : steps ≠ []) :
    (init steps al be v).actualValues_ = [0] ∧
    (init steps al be v).actualValuesSet_ = [false] ∧
    (init steps al be v).maxInputIdx_ = 0 ∧
    (init steps al be v).maxBucketIdx_ = 0 ∧
    (∀ s ∈ steps, wmGet (init steps al be v).weightMatrix_ s = matZero 1 1) ∧
    (init steps al be v).maxSteps_ =
      steps.foldl (fun acc elem => max acc elem) 0 + 1 ∧
    ∀ p ∈ (compute e (init steps al be v) rn pat b a cat false true).2,
      p.2.length = 1 := by
  refine ⟨rfl, rfl, rfl, rfl, ?_, init_maxSteps steps al be v hne, ?_⟩
  · exact fun s hs => wmGet_foldl_insert_of_mem steps (matZero 1 1) [] s hs
  · intro p hp
    obtain ⟨st1, heq, _, hmb, hav⟩ :=
      compute_snd_eq e (init steps al be v) rn pat b a cat false
    rw [heq] at hp
    rcases infer_mem_shape e st1 pat a p hp with ⟨_, hl⟩ | ⟨s, _, _, hval⟩
    · rw [hl, hav]
      rfl
    · rw [hval, normalizeTo_length]
      simp only [rangeExp, List.length_map, foldl_addInto_length,
        List.length_replicate, hmb]
      rfl

/-- Witness for C10 with horizons `[0, 2]`. -/
theorem c10_constructor_state_witness :
    (init [0, 2] 1 1 0).actualValues_ = [0] ∧
    (init [0, 2] 1 1 0).actualValuesSet_ = [false] ∧
    (init [0, 2] 1 1 0).maxInputIdx_ = 0 ∧
    (init [0, 2] 1 1 0).maxBucketIdx_ = 0 ∧
    (∀ s ∈ [0, 2], wmGet (init [0, 2] 1 1 0).weightMatrix_ s = matZero 1 1) ∧
    (init [0, 2] 1 1 0).maxSteps_ =
      [0, 2].foldl (fun acc elem => max acc elem) 0 + 1 ∧
    ∀ p ∈ (compute (fun _ => (1 : ℚ)) (init [0, 2] 1 1 0) 0 [4] 0 3 false
        false true).2, p.2.length = 1 :=
  c10_constructor_state [0, 2] 1 1 0 (fun _ => (1 : ℚ)) 0 [4] 0 3 false
    (by simp)

/-! ## Persistence lemmas -/

@[simp]
theorem readStr_cons (v : String) (r : List Tok) :
    readStr (Tok.s v :: r) = some (v, r) := rfl

@[simp]
theorem readNat_cons (v : Nat) (r : List Tok) :
    readNat (Tok.n v :: r) = some (v, r) := rfl

@[simp]
theorem readRat_cons (v : ℚ) (r : List Tok) :
    readRat (Tok.q v :: r) = some (v, r) := rfl

@[simp]
theorem readBool_boolTok (b : Bool) (r : List Tok) :
    readBool (boolTok b :: r) = some (b, r) := by
  cases b <;> rfl

@[simp]
theorem natToks_nil : natToks [] = [] := rfl

@[simp]
theorem natToks_cons (x : Nat) (xs : List Nat) :
    natToks (x :: xs) = Tok.n x :: natToks xs := rfl

@[simp]
theorem patToks_nil : patToks [] = [] := rfl

@[simp]
theorem patToks_cons (p : List Nat) (ps : List (List Nat)) :
    patToks (p :: ps) = Tok.n p.length :: (natToks p ++ patToks ps) := rfl

@[simp]
theorem matToks_nil : matToks ([] : Matrix) = [] := rfl

@[simp]
theorem matToks_cons (row : List ℚ) (rows : List (List ℚ)) :
    matToks ((row :: rows : List (List ℚ)) : Matrix) =
      row.map Tok.q ++ matToks (rows : Matrix) := rfl

@[simp]
theorem wmToks_nil : wmToks [] = [] := rfl

@[simp]
theorem wmToks_cons (k : Nat) (m : Matrix) (wm : List (Nat × Matrix)) :
    wmToks ((k, m) :: wm) = Tok.n k :: (matToks m ++ wmToks wm) := rfl

@[simp]
theorem avToks_nil (avSet : List Bool) : avToks [] avSet = [] := rfl

@[simp]
theorem avToks_cons (x : ℚ) (xs : List ℚ) (b : Bool) (bs : List Bool) :
    avToks (x :: xs) (b :: bs) = Tok.q x :: boolTok b :: avToks xs bs := rfl

@[simp]
theorem readNats_natToks (l : List Nat) (rest : List Tok) :
    readNats l.length (natToks l ++ rest) = some (l, rest) := by
  induction l with
  | nil => rfl
  | cons x xs ih => simp [readNats, ih]

@[simp]
theorem readRats_qToks (l : List ℚ) (rest : List Tok) :
    readRats l.length (l.map Tok.q ++ rest) = some (l, rest) := by
  induction l with
  | nil => rfl
  | cons x xs ih => simp [readRats, ih]

theorem readMatrixRows_matToks (m : Matrix) (c : Nat)
    (hrow : ∀ row ∈ m, row.length = c) (rest : List Tok) :
    readMatrixRows m.length c (matToks m ++ rest) = some (m, rest) := by
  induction m with
  | nil => rfl
  | cons row rows ih =>
      have hr : row.length = c := hrow row (by simp)
      subst hr
      have hrest : ∀ r ∈ rows, r.length = row.length := fun r h =>
        hrow r (by simp [h])
      simp [readMatrixRows, ih hrest, List.append_assoc]

theorem loadPatternsGo_patToks (li sz : Nat) (ps : List (List Nat)) (i : Nat)
    (rest : List Tok) :
    loadPatternsGo 1 li sz i ps.length (patToks ps ++ rest) =
      some ((ps, []), rest) := by
  induction ps generalizing i with
  | nil => rfl
  | cons p ps2 ih => simp [loadPatternsGo, ih (i + 1), List.append_assoc]

theorem readWM_wmToks (mi mb : Nat) (wm : List (Nat × Matrix))
    (hdims : ∀ kv ∈ wm, kv.2.length = mi + 1 ∧
      ∀ row ∈ kv.2, row.length = mb + 1)
    (acc : List (Nat × Matrix)) (rest : List Tok) :
    readWM wm.length mi mb acc (wmToks wm ++ rest) =
      some (wm.foldl (fun a kv => mapInsert kv.1 kv.2 a) acc, rest) := by
  induction wm generalizing acc with
  | nil => rfl
  | cons kv wm2 ih =>
      obtain ⟨k, m⟩ := kv
      obtain ⟨hlen1, hrows⟩ := hdims (k, m) (by simp)
      have hd2 : ∀ kv ∈ wm2, kv.2.length = mi + 1 ∧
          ∀ row ∈ kv.2, row.length = mb + 1 := fun kv h =>
        hdims kv (by simp [h])
      have hmr := readMatrixRows_matToks m (mb + 1) hrows
        (wmToks wm2 ++ rest)
      rw [hlen1] at hmr
      simp [readWM, hmr, ih hd2, List.append_assoc]

theorem mapInsert_append_of_gt (k : Nat) (v : Matrix)
    (acc : List (Nat × Matrix)) (hgt : ∀ kv ∈ acc, kv.1 < k) :
    mapInsert k v acc = acc ++ [(k, v)] := by
  induction acc with
  | nil => rfl
  | cons kv rest ih =>
      obtain ⟨k1, v1⟩ := kv
      have h1 : k1 < k := hgt (k1, v1) (by simp)
      have h2 : ¬ k < k1 := by omega
      have h3 : ¬ k = k1 := by omega
      simp only [mapInsert, if_neg h2, if_neg h3, List.cons_append]
      rw [ih (fun kv h => hgt kv (by simp [h]))]

theorem foldl_insert_sorted (l : List (Nat × Matrix))
    (hsort : l.Pairwise (fun a b => a.1 < b.1)) :
    ∀ (acc : List (Nat × Matrix)),
      (∀ kv ∈ acc, ∀ kv2 ∈ l, kv.1 < kv2.1) →
      l.foldl (fun a kv => mapInsert kv.1 kv.2 a) acc = acc ++ l := by
  induction l with
  | nil => intro acc _; simp
  | cons kv rest ih =>
      intro acc hacc
      obtain ⟨hhead, htail⟩ := List.pairwise_cons.mp hsort
      rw [List.foldl_cons,
        mapInsert_append_of_gt kv.1 kv.2 acc
          (fun kv2 h => hacc kv2 h kv (by simp)),
        ih htail (acc ++ [kv]) ?_, List.append_assoc]
      · rfl
      · intro kv2 h2 kv3 h3
        rcases List.mem_append.mp h2 with h | h
        · exact hacc kv2 h kv3 (by simp [h3])
        · have : kv2 = kv := by simpa using h
          subst this
          exact hhead kv3 h3

theorem readAVs_avToks (av : List ℚ) (avSet : List Bool)
    (hlen : av.length = avSet.length) (rest : List Tok) :
    readAVs av.length (avToks av avSet ++ rest) =
      some ((av, avSet), rest) := by
  induction av generalizing avSet with
  | nil =>
      cases avSet with
      | nil => rfl
      | cons b bs => simp at hlen
  | cons x xs ih =>
      cases avSet with
      | nil => simp at hlen
      | cons b bs =>
          have h2 : xs.length = bs.length := by simpa using hlen
          simp [readAVs, ih bs h2]

set_option maxHeartbeats 2000000 in
/-- Parsing the body written by `save` recovers the exact state (the
sequential encoding preserves every field; `prior` is irrelevant for a
version-1 stream). -/
theorem loadCore_saveBody (prior st : SDR) (rest : List Tok)
    (h1 : st.version_ = 1)
    (hlen : st.actualValues_.length = st.actualValuesSet_.length)
    (hsort : st.weightMatrix_.Pairwise (fun a b => a.1 < b.1))
    (hdims : ∀ kv ∈ st.weightMatrix_, kv.2.length = st.maxInputIdx_ + 1 ∧
      ∀ row ∈ kv.2, row.length = st.maxBucketIdx_ + 1) :
    loadCore prior (saveBody st ++ rest) = some (st, rest) := by
  obtain ⟨steps, alpha, avAlpha, li, rnmli, rnmliSet, ms, ph, ih2, mi, mb,
    wm, avs, avset, ver, verb⟩ := st
  simp only at h1 hlen hsort hdims
  subst h1
  have hp := loadPatternsGo_patToks li ph.length ph 0
  have hwm := readWM_wmToks mi mb wm hdims []
  have hfold := foldl_insert_sorted wm hsort [] (by simp)
  have hav := readAVs_avToks avs avset hlen
  simp [loadCore, saveBody, readScalars, readV1Fields, readPatterns,
    hp, hwm, hfold, hav, List.append_assoc]

/-- Reflexivity helpers for the comparator. -/
theorem approxEq_self (a : ℚ) : approxEq a a = true := by
  simp only [approxEq, sub_self, abs_zero, decide_eq_true_eq]
  norm_num

theorem mem_zip_self {α : Type} (l : List α) (p : α × α)
    (hp : p ∈ l.zip l) : p.1 = p.2 := by
  induction l with
  | nil => cases hp
  | cons x xs ih =>
      rcases List.mem_cons.mp hp with h | h
      · rw [h]
      · exact ih h

@[simp]
theorem zip_self_all_beq {α : Type} [BEq α] [LawfulBEq α] (l : List α) :
    (l.zip l).all (fun p => p.1 == p.2) = true := by
  rw [List.all_eq_true]
  intro p hp
  simp [mem_zip_self l p hp]

@[simp]
theorem zip_self_all_pat (l : List (List Nat)) :
    (l.zip l).all (fun pq =>
      (pq.1.length == pq.2.length) &&
      (pq.1.zip pq.2).all (fun xy => xy.1 == xy.2)) = true := by
  rw [List.all_eq_true]
  intro pq hpq
  simp [mem_zip_self l pq hpq]

theorem lookup_of_mem_sorted (wm : List (Nat × Matrix))
    (hsort : wm.Pairwise (fun a b => a.1 < b.1)) (kv : Nat × Matrix)
    (hm : kv ∈ wm) : wm.lookup kv.1 = some kv.2 := by
  induction wm with
  | nil => cases hm
  | cons hd rest ih =>
      obtain ⟨hhead, htail⟩ := List.pairwise_cons.mp hsort
      rcases List.mem_cons.mp hm with h | h
      · subst h
        simp [List.lookup]
      · have hne : kv.1 ≠ hd.1 := Nat.ne_of_gt (hhead kv h)
        obtain ⟨k1, v1⟩ := hd
        simp only [List.lookup, beq_eq_false_iff_ne.mpr hne]
        exact ih htail h

/-- The comparator accepts a state compared with itself, provided the weight
map has strictly sorted keys (the `std::map` invariant). -/
theorem sdrEq_self (st : SDR)
    (hsort : st.weightMatrix_.Pairwise (fun a b => a.1 < b.1)) :
    sdrEq st st = true := by
  have hwm : ∀ kv ∈ st.weightMatrix_,
      wmGet st.weightMatrix_ kv.1 = kv.2 := by
    intro kv h
    simp [wmGet, lookup_of_mem_sorted st.weightMatrix_ hsort kv h]
  have hcells : st.weightMatrix_.all (fun kv =>
      (List.range (st.maxInputIdx_ + 1)).all (fun i =>
        (List.range (st.maxBucketIdx_ + 1)).all (fun j =>
          matAt kv.2 i j == matAt (wmGet st.weightMatrix_ kv.1) i j)))
      = true := by
    rw [List.all_eq_true]
    intro kv hkv
    rw [hwm kv hkv]
    simp
  simp [sdrEq, approxEq_self, hcells]

theorem set_version_self (st : SDR) (h : st.version_ = 1) :
    { st with version_ := currentVersion } = st := by
  obtain ⟨s1, s2, s3, s4, s5, s6, s7, s8, s9, s10, s11, s12, s13, s14, ver,
    s16⟩ := st
  simp only at h
  subst h
  rfl

set_option maxHeartbeats 2000000 in
/-- C4: saving a well-formed state with the sequential text encoding and
loading the result into any classifier replaces the in-memory state with
exactly the saved state, which the deep comparator accepts.  Well-formed:
the in-code version stamp is `1`, the value/flag tables have equal
lengths, and the weight map satisfies the `std::map` key order and the
common-dimension invariant. -/
theorem c4_sequential_roundtrip (prior st : SDR)
    (h1 : st.version_ = 1)
    (hlen : st.actualValues_.length = st.actualValuesSet_.length)
    (hsort : st.weightMatrix_.Pairwise (fun a b => a.1 < b.1))
    (hdims : ∀ kv ∈ st.weightMatrix_, kv.2.length = st.maxInputIdx_ + 1 ∧
      ∀ row ∈ kv.2, row.length = st.maxBucketIdx_ + 1) :
    load prior (save st) = some st ∧
    (load prior (save st)).map (fun r => sdrEq r st) = some true := by
  have hload : load prior (save st) = some st := by
    unfold load save
    simp [loadCore_saveBody prior st [Tok.s "~SDRClassifier"] h1 hlen hsort
      hdims, set_version_self st h1]
  exact ⟨hload, by rw [hload]; simp [sdrEq_self st hsort]⟩

unseal Rat.add Rat.mul Rat.inv Rat.sub in
/-- Witness for C4: round-tripping the concrete state `c3Base` through an
unrelated freshly constructed classifier. -/
theorem c4_sequential_roundtrip_witness :
    load (init [0] 1 1 0) (save c3Base) = some c3Base ∧
    (load (init [0] 1 1 0) (save c3Base)).map (fun r => sdrEq r c3Base) =
      some true :=
  c4_sequential_roundtrip (init [0] 1 1 0) c3Base rfl rfl
    (by decide) (by decide)

/-- C6: `load` fails (producing no state at all) when the start marker is
wrong, when the stream version tag exceeds the highest supported version
`1`, and when the end marker of an otherwise well-formed stream is
wrong. -/
theorem c6_load_rejects_malformed :
    (∀ (prior : SDR) (m : String) (rest : List Tok), m ≠ "SDRClassifier" →
      load prior (Tok.s m :: rest) = none) ∧
    (∀ (prior : SDR) (v : Nat) (rest : List Tok), 1 < v →
      load prior (Tok.s "SDRClassifier" :: Tok.n v :: rest) = none) ∧
    ∀ (prior st : SDR) (m : String), st.version_ = 1 →
      st.actualValues_.length = st.actualValuesSet_.length →
      st.weightMatrix_.Pairwise (fun a b => a.1 < b.1) →
      (∀ kv ∈ st.weightMatrix_, kv.2.length = st.maxInputIdx_ + 1 ∧
        ∀ row ∈ kv.2, row.length = st.maxBucketIdx_ + 1) →
      m ≠ "~SDRClassifier" →
      load prior (saveBody st ++ [Tok.s m]) = none := by
  refine ⟨?_, ?_, ?_⟩
  · intro prior m rest hm
    have hcore : loadCore prior (Tok.s m :: rest) = none := by
      simp only [loadCore, readStr_cons, Option.bind_eq_bind',
        Option.some_bind]
      rw [if_neg hm]
    simp only [load, hcore, Option.bind_eq_bind', Option.none_bind]
  · intro prior v rest hv
    have hnle : ¬ v ≤ 1 := by omega
    have hcore : loadCore prior (Tok.s "SDRClassifier" :: Tok.n v :: rest)
        = none := by
      simp only [loadCore, readStr_cons, readNat_cons, Option.bind_eq_bind',
        Option.some_bind]
      rw [if_neg hnle]
      simp
    simp only [load, hcore, Option.bind_eq_bind', Option.none_bind]
  · intro prior st m h1 hlen hsort hdims hm
    simp only [load, loadCore_saveBody prior st [Tok.s m] h1 hlen hsort
      hdims, Option.bind_eq_bind', Option.some_bind, readStr_cons]
    rw [if_neg hm]

unseal Rat.add Rat.mul Rat.inv Rat.sub in
/-- Witness for C6 at three concrete malformed streams. -/
theorem c6_load_rejects_malformed_witness :
    load (init [0] 1 1 0) (Tok.s "Classifier" :: []) = none ∧
    load (init [0] 1 1 0) (Tok.s "SDRClassifier" :: Tok.n 2 :: []) = none ∧
    load (init [0] 1 1 0) (saveBody c3Base ++ [Tok.s "SDRClassifier"]) =
      none :=
  ⟨c6_load_rejects_malformed.1 (init [0] 1 1 0) "Classifier" []
      (by decide),
   c6_load_rejects_malformed.2.1 (init [0] 1 1 0) 2 [] (by decide),
   c6_load_rejects_malformed.2.2 (init [0] 1 1 0) c3Base "SDRClassifier"
      rfl rfl (by decide) (by decide) (by decide)⟩

theorem readStr_eq_some (toks : List Tok) (m : String) (r : List Tok)
    (h : readStr toks = some (m, r)) : toks = Tok.s m :: r := by
  cases toks with
  | nil => exact absurd h (by simp [readStr])
  | cons t rest =>
      cases t with
      | s w =>
          simp only [readStr_cons, Option.some.injEq, Prod.mk.injEq] at h
          rw [h.1, h.2]
      | n w => exact absurd h (by simp [readStr])
      | q w => exact absurd h (by simp [readStr])

theorem readNat_eq_some (toks : List Tok) (v : Nat) (r : List Tok)
    (h : readNat toks = some (v, r)) : toks = Tok.n v :: r := by
  cases toks with
  | nil => exact absurd h (by simp [readNat])
  | cons t rest =>
      cases t with
      | n w =>
          simp only [readNat_cons, Option.some.injEq, Prod.mk.injEq] at h
          rw [h.1, h.2]
      | s w => exact absurd h (by simp [readNat])
      | q w => exact absurd h (by simp [readNat])

theorem loadPatternsGo_zero_inv (li sz : Nat) (fuel : Nat) : ∀ (i : Nat)
    (toks : List Tok) (ps : List (List Nat)) (its : List Nat) (r : List Tok),
    loadPatternsGo 0 li sz i fuel toks = some ((ps, its), r) →
    ps.length = fuel ∧
      its = (List.range' i fuel).map (fun j => usub32 li (sz - j)) := by
  induction fuel with
  | zero =>
      intro i toks ps its r h
      simp only [loadPatternsGo, Option.some.injEq, Prod.mk.injEq] at h
      exact ⟨by rw [← h.1.1]; rfl, by rw [← h.1.2]; rfl⟩
  | succ k ih =>
      intro i toks ps its r h
      simp only [loadPatternsGo] at h
      cases h1 : readNat toks with
      | none => rw [h1] at h; simp at h
      | some vt =>
          obtain ⟨v, t1⟩ := vt
          rw [h1] at h
          simp only [Option.bind_eq_bind', Option.some_bind] at h
          cases h2 : readNats v t1 with
          | none => rw [h2] at h; simp at h
          | some pt =>
              obtain ⟨pat, t2⟩ := pt
              rw [h2] at h
              simp only [Option.some_bind] at h
              cases h3 : loadPatternsGo 0 li sz (i + 1) k t2 with
              | none => rw [h3] at h; simp at h
              | some pr =>
                  obtain ⟨⟨pats, iters⟩, t3⟩ := pr
                  rw [h3] at h
                  simp only [Option.some_bind, Option.some.injEq,
                    Prod.mk.injEq, if_pos rfl] at h
                  obtain ⟨⟨hp, hi⟩, _⟩ := h
                  obtain ⟨hl, hits⟩ := ih (i + 1) t2 pats iters t3 h3
                  refine ⟨by rw [← hp]; simp [hl], ?_⟩
                  rw [← hi, hits]
                  rfl

theorem readPatterns_zero_inv (li : Nat) (toks : List Tok)
    (ps : List (List Nat)) (its : List Nat) (r : List Tok)
    (h : readPatterns 0 li toks = some ((ps, its), r)) :
    its = (List.range ps.length).map
      (fun j => usub32 li (ps.length - j)) := by
  unfold readPatterns at h
  cases h1 : readNat toks with
  | none => rw [h1] at h; simp at h
  | some vt =>
      obtain ⟨sz, t1⟩ := vt
      rw [h1] at h
      simp only [Option.bind_eq_bind', Option.some_bind] at h
      obtain ⟨hl, hits⟩ := loadPatternsGo_zero_inv li sz sz 0 t1 ps its r h
      subst hl
      rw [hits, List.range_eq_range']

set_option maxHeartbeats 4000000 in
/-- C8: any successful `load` of a version-0 stream (version tag `0` in
position 1) synthesizes the history iteration number for index `i` as
`learnIteration − (historyCount − i)`, computed with the program's `UInt`
subtraction (`usub32`, wrapping modulo `2^32`). -/
theorem c8_v0_history_iterations (prior : SDR) (toks : List Tok) (st : SDR)
    (hload : load prior toks = some st)
    (hver : toks.get? 1 = some (Tok.n 0)) :
    st.iterationNumHistory_ =
      (List.range st.patternNZHistory_.length).map
        (fun i => usub32 st.learnIteration_
          (st.patternNZHistory_.length - i)) := by
  unfold load at hload
  cases hcore : loadCore prior toks with
  | none => rw [hcore] at hload; simp at hload
  | some pr =>
      obtain ⟨st0, t1⟩ := pr
      rw [hcore] at hload
      simp only [Option.bind_eq_bind', Option.some_bind] at hload
      have hst : st.iterationNumHistory_ = st0.iterationNumHistory_ ∧
          st.patternNZHistory_ = st0.patternNZHistory_ ∧
          st.learnIteration_ = st0.learnIteration_ := by
        cases hm : readStr t1 with
        | none => rw [hm] at hload; simp at hload
        | some mt =>
            obtain ⟨m, t2⟩ := mt
            rw [hm] at hload
            simp only [Option.some_bind] at hload
            by_cases hmk : m = "~SDRClassifier"
            · rw [if_pos hmk] at hload
              simp only [Option.some.injEq] at hload
              rw [← hload]
              exact ⟨rfl, rfl, rfl⟩
            · rw [if_neg hmk] at hload
              simp at hload
      obtain ⟨hit, hph, hli⟩ := hst
      rw [hit, hph, hli]
      -- invert loadCore
      simp only [loadCore] at hcore
      cases hs : readStr toks with
      | none => rw [hs] at hcore; simp at hcore
      | some mt =>
          obtain ⟨marker, r1⟩ := mt
          rw [hs] at hcore
          simp only [Option.bind_eq_bind', Option.some_bind] at hcore
          by_cases hmk2 : marker = "SDRClassifier"
          case neg => rw [if_neg hmk2] at hcore; simp at hcore
          rw [if_pos hmk2] at hcore
          cases hn : readNat r1 with
          | none => rw [hn] at hcore; simp at hcore
          | some vt =>
              obtain ⟨ver, r2⟩ := vt
              rw [hn] at hcore
              simp only [Option.some_bind] at hcore
              have htoks := readStr_eq_some toks marker r1 hs
              have hr1 := readNat_eq_some r1 ver r2 hn
              rw [htoks, hr1] at hver
              simp only [List.get?] at hver
              have hver0 : ver = 0 := by
                simpa using hver
              subst hver0
              rw [if_pos (by omega)] at hcore
              cases hsc : readScalars r2 with
              | none => rw [hsc] at hcore; simp at hcore
              | some scp =>
                  obtain ⟨sc, r3⟩ := scp
                  rw [hsc] at hcore
                  simp only [Option.some_bind] at hcore
                  have hv1 : readV1Fields prior 0 r3 =
                      some ((prior.recordNumMinusLearnIteration_, false,
                        ([] : List Nat)), r3) := rfl
                  rw [hv1] at hcore
                  simp only [Option.some_bind] at hcore
                  cases hn2 : readNat r3 with
                  | none => rw [hn2] at hcore; simp at hcore
                  | some np =>
                      obtain ⟨nSteps, r4⟩ := np
                      rw [hn2] at hcore
                      simp only [Option.some_bind] at hcore
                      cases hnats : readNats nSteps r4 with
                      | none => rw [hnats] at hcore; simp at hcore
                      | some sp =>
                          obtain ⟨steps, r5⟩ := sp
                          rw [hnats] at hcore
                          simp only [Option.some_bind] at hcore
                          cases hp : readPatterns 0 sc.learnIteration r5 with
                          | none => rw [hp] at hcore; simp at hcore
                          | some hh =>
                              obtain ⟨⟨ps, its⟩, r6⟩ := hh
                              rw [hp] at hcore
                              simp only [Option.some_bind] at hcore
                              cases hw1 : readNat r6 with
                              | none => rw [hw1] at hcore; simp at hcore
                              | some wp =>
                                  obtain ⟨wmCount, r7⟩ := wp
                                  rw [hw1] at hcore
                                  simp only [Option.some_bind] at hcore
                                  cases hwm : readWM wmCount sc.maxInputIdx
                                      sc.maxBucketIdx [] r7 with
                                  | none => rw [hwm] at hcore; simp at hcore
                                  | some wmp =>
                                      obtain ⟨wm, r8⟩ := wmp
                                      rw [hwm] at hcore
                                      simp only [Option.some_bind] at hcore
                                      cases hb : readNat r8 with
                                      | none => rw [hb] at hcore; simp at hcore
                                      | some bp =>
                                          obtain ⟨nb, r9⟩ := bp
                                          rw [hb] at hcore
                                          simp only [Option.some_bind] at hcore
                                          cases hav : readAVs nb r9 with
                                          | none =>
                                              rw [hav] at hcore
                                              simp at hcore
                                          | some avp =>
                                              obtain ⟨avs, r10⟩ := avp
                                              rw [hav] at hcore
                                              simp only [Option.some_bind,
                                                Option.some.injEq,
                                                Prod.mk.injEq] at hcore
                                              obtain ⟨hrec, _⟩ := hcore
                                              rw [← hrec]
                                              simp only [List.nil_append]
                                              exact readPatterns_zero_inv
                                                sc.learnIteration r5 ps its r6
                                                hp
unseal Rat.add Rat.mul Rat.inv Rat.sub in
/-- Witness for C8: loading the concrete version-0 stream `c8Toks`
(two history patterns, `learnIteration = 1`) yields iteration numbers
`[2^32 - 1, 0]` — the first one wrapped, as the `UInt` subtraction does. -/
theorem c8_v0_history_iterations_witness :
    c8Loaded.iterationNumHistory_ =
      (List.range c8Loaded.patternNZHistory_.length).map
        (fun i => usub32 c8Loaded.learnIteration_
          (c8Loaded.patternNZHistory_.length - i)) :=
  c8_v0_history_iterations (init [1] 1 1 0) c8Toks c8Loaded (by decide)
    (by decide)

end SDRC
